import Mathlib

/-!
Verification development for the finite-element assembly core
(`dolfin/fem/Assembler.cpp`).

The C++ code is shallowly embedded: external collaborators (PETSc
matrix/vector, mesh, dofmaps, the generated `tabulate_tensor` callback)
are modelled through their contracts, and the `Assembler` member
functions are translated into executable Lean functions.

Modelling conventions:
- global dof indices are `Nat`, scalar values are `Int` (the real code
  uses `double`; only ring identities are relied on, never rounding);
- `DirichletBC::Map` (`std::unordered_map<std::size_t, double>`) is an
  association list with overwriting insert and unique keys;
- a `Cell` carries the two local-to-global dof lists of a cell (one per
  form axis) together with the local tensor callbacks; the tensor is an
  arbitrary function, matching the external `tabulate_tensor` contract
  ("fill a caller-provided dense buffer");
- PETSc `add_local` / `zero_local` / `set_local` / `apply` are modelled
  by their documented value semantics on total functions over global
  indices (`apply` is a value no-op on one rank; it appears in the event
  traces);
- out-of-bounds vector accesses of the C++ (`_l[0]` on an empty list,
  `_a[i]` past the end, dereferencing an absent `shared_ptr`) are
  undefined behaviour in the source; the embedding makes them explicit
  `Option` failures, which is exactly what the safety claim about
  `assemble(PETScVector&)` characterises.
-/

/-! ## Boundary-value maps (`DirichletBC::Map`) -/

/-- A boundary map: global dof index to prescribed value, unique keys. -/
abbrev BMap := List (Nat × Int)

/-- Lookup in a boundary map (`boundary_values.find(dof)`). -/
def bmFind : BMap → Nat → Option Int
  | [], _ => none
  | q :: rest, d => if q.1 = d then some q.2 else bmFind rest d

/-- Overwriting insert, the semantics of `std::unordered_map` assignment
used by `DirichletBC::get_boundary_values` / `gather`. -/
def bmInsert (m : BMap) (p : Nat × Int) : BMap :=
  match m with
  | [] => [p]
  | q :: rest => if q.1 = p.1 then p :: rest else q :: bmInsert rest p

/-- Insert a whole list of (dof, value) pairs. -/
def bmInsertAll (m : BMap) (ps : List (Nat × Int)) : BMap :=
  ps.foldl bmInsert m

/-! ## Boundary conditions (`DirichletBC`) -/

/-- The slice of a `DirichletBC` consumed by the assembler: the function
space it is bound to, its method tag, the locally resolved (dof, value)
pairs delivered by `get_boundary_values`, and the remotely owned pairs a
collective `gather` adds. -/
structure BC where
  space : Nat
  method : String
  localPairs : List (Nat × Int)
  gatherPairs : List (Nat × Int)

/-- The boundary-map resolution loop shared by matrix assembly (per
axis), `apply_bc` and `set_bc`:

for each condition whose space is contained in the axis space, merge its
local pairs, and when distributed (`MPI::size > 1`) with a non-pointwise
method also perform the collective `gather`.  Besides the map it returns
the list of condition indices for which `gather` was called, so that the
collective-call pattern itself is provable.  `cont sp x` embeds
`spaces[axis]->contains(*bcs[i]->function_space())`. -/
def resolveAux (cont : Nat → Nat → Bool) (sp mpi : Nat) :
    List BC → Nat → BMap → BMap × List Nat
  | [], _, m => (m, [])
  | bc :: rest, k, m =>
    if cont sp bc.space then
      let m1 := bmInsertAll m bc.localPairs
      if 1 < mpi ∧ bc.method ≠ "pointwise" then
        let r := resolveAux cont sp mpi rest (k + 1) (bmInsertAll m1 bc.gatherPairs)
        (r.1, k :: r.2)
      else
        resolveAux cont sp mpi rest (k + 1) m1
    else
      resolveAux cont sp mpi rest (k + 1) m

/-- Resolve the boundary map of one axis, starting from the empty map
(a `DirichletBC::Map` is rebuilt on every call, never cached). -/
def resolveBCs (cont : Nat → Nat → Bool) (sp mpi : Nat) (bcs : List BC) :
    BMap × List Nat :=
  resolveAux cont sp mpi bcs 0 []

/-! ## Mesh cells, forms, global objects -/

/-- Per-cell data visible to the assembler: the local-to-global dof
lists for axis 0 (test) and axis 1 (trial), and the local tensor
callbacks (`tabulate_tensor` for the rank-2 and rank-1 cases). -/
structure Cell where
  dofs0 : List Nat
  dofs1 : List Nat
  tensor : Nat → Nat → Int
  vec : Nat → Int

/-- The slice of a `Form` consumed by the assembler: its two function
spaces (identified by `Nat` tags; `space0 = space1` embeds the pointer
equality `spaces[0] == spaces[1]`) and the mesh cells with their dof
maps.  Rank-1 forms use `space0` / `dofs0` / `vec` only. -/
structure Form where
  space0 : Nat
  space1 : Nat
  cells : List Cell

/-- Global PETSc vector: emptiness flag plus entry values. -/
structure GVec where
  isEmpty : Bool
  entries : Nat → Int

/-- Freshly initialised (zero) global vector, `fem::init(b, L)`. -/
def vecInit : GVec := ⟨false, fun _ => 0⟩

/-- Global PETSc matrix: emptiness flag plus entry values. -/
structure GMat where
  isEmpty : Bool
  entries : Nat → Nat → Int

/-- Sum of the local values scattered onto global index `d`:
`scatterSum ds vals d = Σ { vals k | k < ds.length, ds[k] = d }`.  This
is the value contract of PETSc `add_local` (duplicate indices
accumulate). -/
def scatterSum : List Nat → (Nat → Int) → Nat → Int
  | [], _, _ => 0
  | g :: rest, vals, d =>
      (if g = d then vals 0 else 0) + scatterSum rest (fun k => vals (k + 1)) d

/-- `b.add_local(vals, n, ds)`: accumulate local values into global
entries. -/
def GVec.addLocal (b : GVec) (vals : Nat → Int) (ds : List Nat) : GVec :=
  ⟨b.isEmpty, fun d => b.entries d + scatterSum ds vals d⟩

/-- `A.add_local(vals, rows, cols)`: accumulate a local dense matrix
into global entries. -/
def addLocalMat (A : Nat → Nat → Int) (rows cols : List Nat)
    (vals : Nat → Nat → Int) : Nat → Nat → Int :=
  fun r c => A r c + scatterSum rows (fun i => scatterSum cols (fun j => vals i j) c) r

/-! ## Matrix assembly for one form (`assemble(A, a, bcs)`) -/

/-- Zero every local row whose axis-0 global index is in the boundary
map (the first elimination loop over `Ae.rows()`). -/
def zeroRows (bv : BMap) (rowDofs : List Nat) (t : Nat → Nat → Int) :
    Nat → Nat → Int :=
  fun i j => if (bmFind bv (rowDofs.getD i 0)).isSome then 0 else t i j

/-- Zero every local column whose axis-1 global index is in the boundary
map (the second elimination loop over `Ae.cols()`). -/
def zeroCols (bv : BMap) (colDofs : List Nat) (t : Nat → Nat → Int) :
    Nat → Nat → Int :=
  fun i j => if (bmFind bv (colDofs.getD j 0)).isSome then 0 else t i j

/-- One cell of the matrix cell loop: tabulate the local tensor, zero
boundary rows then boundary columns, scatter-add into the global
matrix. -/
def processCellMat (bv0 bv1 : BMap) (A : Nat → Nat → Int) (c : Cell) :
    Nat → Nat → Int :=
  addLocalMat A c.dofs0 c.dofs1
    (zeroCols bv1 c.dofs1 (zeroRows bv0 c.dofs0 c.tensor))

/-- `A.zero_local(rows, 1.0)` on the keys of the axis-0 boundary map:
zero each such global row and place `1.0` on its diagonal. -/
def zeroDiagRows (bv : BMap) (A : Nat → Nat → Int) : Nat → Nat → Int :=
  fun r c => if (bmFind bv r).isSome then (if c = r then 1 else 0) else A r c

/-- Value semantics of `fem::Assembler::assemble(PETScMatrix&, const
Form&, bcs)`: initialise if empty, resolve the two per-axis boundary
maps, run the cell loop with row/column elimination, finalise (a value
no-op), and — only when the two spaces are identical — write `1.0` onto
the diagonal of every boundary dof. -/
def assembleFormMat (cont : Nat → Nat → Bool) (mpi : Nat) (bcs : List BC)
    (f : Form) (A : GMat) : GMat :=
  let M0 := if A.isEmpty then (fun _ _ => (0 : Int)) else A.entries
  let bv0 := (resolveBCs cont f.space0 mpi bcs).1
  let bv1 := (resolveBCs cont f.space1 mpi bcs).1
  let M1 := f.cells.foldl (processCellMat bv0 bv1) M0
  if f.space0 = f.space1 then ⟨false, zeroDiagRows bv0 M1⟩ else ⟨false, M1⟩

/-! ## Vector assembly for one linear form (`assemble(b, L)`) -/

/-- Value semantics of `fem::Assembler::assemble(PETScVector&, const
Form&)`: initialise if empty, then scatter-add every cell's local vector
tensor; finalise is a value no-op. -/
def assembleVecForm (f : Form) (b : GVec) : GVec :=
  let b0 := if b.isEmpty then vecInit else b
  f.cells.foldl (fun w c => w.addLocal c.vec c.dofs0) b0

/-! ## Lifting correction (`apply_bc(b, a, bcs)`) -/

/-- The local tensor buffer of `apply_bc`: `Ae` is resized to
`(dmap0.size(), dmap1.size())` where the source takes *both* maps from
`dofmap1`, zeroed, and then `tabulate_tensor` writes the form's
`dofs0.length × dofs1.length` local tensor into it row-major (the row
width matches, so entry `(i, j)` holds the tensor value for
`i < dofs0.length` and remains zero beyond). -/
def tensorBuf (c : Cell) : Nat → Nat → Int :=
  fun i j => if i < c.dofs0.length ∧ j < c.dofs1.length then c.tensor i j else 0

/-- The accumulation loop building the correction vector: for every
local column `j` whose axis-1 global dof is constrained with value `v`,
subtract `row j * v` (`be -= Ae.col(j) * bc->second` read entry-wise:
`liftSum bv ds row` is the total subtracted from the entry whose local
row the function `row` describes). -/
def liftSum (bv : BMap) : List Nat → (Nat → Int) → Int
  | [], _ => 0
  | g :: rest, row =>
      ((bmFind bv g).map (fun v => row 0 * v)).getD 0
        + liftSum bv rest (fun j => row (j + 1))

/-- One cell of the `apply_bc` cell loop.  Faithful to the source:

* the cell is skipped (no tensor computation, no contribution) unless
  some axis-1 local dof is in the boundary map;
* `dmap0` is taken from `dofmap1` (`auto dmap0 = dofmap1->cell_dofs(...)`,
  `Assembler.cpp:469`), so both the row map and the scatter target are
  the axis-1 dofs;
* boundary rows of `Ae` are zeroed only when the two spaces are equal;
* the correction vector is scatter-added through `dmap0`. -/
def applyBcCell (bv : BMap) (spEq : Bool) (b : GVec) (c : Cell) : GVec :=
  if c.dofs1.any (fun d => (bmFind bv d).isSome) then
    let dmap0 := c.dofs1
    let Ae0 := tensorBuf c
    let Ae := if spEq then zeroRows bv dmap0 Ae0 else Ae0
    let be := fun i => -(liftSum bv c.dofs1 (fun j => Ae i j))
    b.addLocal be dmap0
  else b

/-- Value semantics of `fem::Assembler::apply_bc(PETScVector&, const
Form&, bcs)`: resolve the boundary map against the trial (axis-1) space
only, then run the per-cell correction loop; finalise is a value
no-op. -/
def applyBcValues (cont : Nat → Nat → Bool) (mpi : Nat) (bcs : List BC)
    (f : Form) (b : GVec) : GVec :=
  let bv := (resolveBCs cont f.space1 mpi bcs).1
  f.cells.foldl (applyBcCell bv (f.space0 == f.space1)) b

/-! ## Boundary overwrite (`set_bc(b, L, bcs)`) -/

/-- Value semantics of `fem::Assembler::set_bc`: resolve the boundary
map against the test space of the linear form, then `set_local`
(overwrite, not add) the prescribed values; finalise is a value
no-op. -/
def setBcVec (cont : Nat → Nat → Bool) (mpi : Nat) (bcs : List BC)
    (L : Form) (b : GVec) : GVec :=
  let bv := (resolveBCs cont L.space0 mpi bcs).1
  ⟨b.isEmpty,
   fun d =>
     match bmFind bv d with
     | some v => v
     | none => b.entries d⟩

/-! ## The assembled operator without boundary conditions -/

/-- Entry `(r, c)` of the bilinear form assembled with no boundary
conditions at all: the plain sum of all cell scatter-adds.  This is the
reference operator `A` the lifting-correction identity talks about. -/
def pureMatrixEntry (f : Form) (r c : Nat) : Int :=
  (f.cells.map
    (fun cl => scatterSum cl.dofs0 (fun i => scatterSum cl.dofs1 (fun j => cl.tensor i j) c) r)).sum

/-! ## Assembler state and top-level entry points

The `Assembler` object holds the block table of bilinear forms `_a`
(absent entries are `none`, meaning a zero block), the list of linear
forms `_l`, and the boundary conditions `_bcs`.  The constructor
performs no shape check (it is commented out in the source). -/

/-- The `Assembler` member state `(_a, _l, _bcs)`. -/
structure AsmState where
  a : List (List (Option Form))
  l : List Form
  bcs : List BC

/-- Identity of a PETSc matrix object during `assemble(PETScMatrix&)`:
either the full (caller's) matrix or the `MatNest` sub-block view at
block position `(i, j)`. -/
inductive MId where
  | full : MId
  | sub : Nat → Nat → MId
deriving DecidableEq, Repr

/-- Events of matrix assembly, tagged with the matrix object they hit:
one `fillCell` per cell scatter-add, `apply` for
`apply(AssemblyType::FINAL)`, `setDiag` for the diagonal `zero_local`
write. -/
inductive MEv where
  | fillCell : MId → MEv
  | apply : MId → MEv
  | setDiag : MId → MEv
deriving DecidableEq, Repr

/-- Event trace of `assemble(PETScMatrix& A, const Form& a, bcs)`
targeting matrix object `m`: the cell loop, then `A.apply(FINAL)`, then
(only when the two spaces are identical) the diagonal write. -/
def formTrace (m : MId) (f : Form) : List MEv :=
  (f.cells.map (fun _ => MEv.fillCell m)) ++ [MEv.apply m]
    ++ (if f.space0 = f.space1 then [MEv.setDiag m] else [])

/-- Event trace of the block path of `assemble(PETScMatrix&)`: for each
block position in row-major order, if the form is present, assemble into
the `MatNestGetSubMat` view of that position.  Absent blocks contribute
nothing. -/
def blockTrace (a : List (List (Option Form))) : List MEv :=
  (List.range a.length).flatMap (fun i =>
    (List.range ((a.getD i []).length)).flatMap (fun j =>
      match (a.getD i []).getD j none with
      | some f => formTrace (MId.sub i j) f
      | none => []))

/-- Event trace of `assemble(PETScMatrix&)` after initialisation: the
block path assembles each non-absent sub-block into its sub-matrix view
and then applies the full matrix once; the single-form path assembles
the one form directly into the full matrix and then applies it (again).
`1 < a.length ∨ 1 < (a.getD 0 []).length` embeds
`_a.size() > 1 or _a[0].size() > 1`. -/
def matAssembleTrace (a : List (List (Option Form))) : List MEv :=
  if 1 < a.length ∨ 1 < (a.getD 0 []).length then
    blockTrace a ++ [MEv.apply MId.full]
  else
    (match (a.getD 0 []).getD 0 none with
     | some f => formTrace MId.full f
     | none => []) ++ [MEv.apply MId.full]

/-- `fem::Assembler::assemble(PETScMatrix& A)`: if `A` is already
initialised the call throws `"Not implemented"` before touching any
entry; otherwise the matrix is initialised and assembled, producing the
event trace above. -/
def assembleMatrixTop (a : List (List (Option Form))) (A : GMat) :
    Except String (List MEv) :=
  if A.isEmpty then Except.ok (matAssembleTrace a) else Except.error "Not implemented"

/-- Events of `assemble(PETScVector&)`: the cell-loop assembly of
`*_l[0]`, the lifting corrections `apply_bc(b, *_a[i][j], _bcs)`, and
the final overwrite `set_bc(b, *_l[0], _bcs)`. -/
inductive VEv where
  | asmVec : VEv
  | lift : Nat → Nat → VEv
  | setBc : VEv
deriving DecidableEq, Repr

/-- The lifting events emitted by the double loop
`for (i < _l.size()) for (j < _a[i].size()) apply_bc(b, *_a[i][j], _bcs)`.
Note the outer bound is the number of linear forms, not the number of
rows of the bilinear-form table. -/
def liftEvents (a : List (List (Option Form))) (l : List Form) : List VEv :=
  (List.range l.length).flatMap (fun i =>
    (List.range ((a.getD i []).length)).map (fun j => VEv.lift i j))

/-- Event trace of `fem::Assembler::assemble(PETScVector&)`. -/
def assembleVecTrace (a : List (List (Option Form))) (l : List Form) : List VEv :=
  VEv.asmVec :: (liftEvents a l ++ [VEv.setBc])

/-- One iteration of the outer lifting loop of `assemble(PETScVector&)`:
access `_a[i]` (out of bounds gives `none`), then for each entry of row
`i` dereference `*_a[i][j]` (an absent form gives `none`) and apply the
lifting correction. -/
def liftStep (cont : Nat → Nat → Bool) (mpi : Nat) (st : AsmState)
    (w : GVec) (i : Nat) : Option GVec := do
  let row ← st.a[i]?
  row.foldlM
    (fun (w' : GVec) of => do
      let f ← of
      pure (applyBcValues cont mpi st.bcs f w'))
    w

/-- Value semantics of `fem::Assembler::assemble(PETScVector& b)`,
access-faithful: every container access the C++ performs with no check
(`*_l[0]`, `_a[i]`, `*_a[i][j]`) is an `Option` bind, so the result is
`none` exactly when the source commits an out-of-bounds or null access.
On success it performs, in order: cell assembly of the first linear
form, the lifting corrections, and the boundary overwrite. -/
def assembleVectorTop (cont : Nat → Nat → Bool) (mpi : Nat) (st : AsmState)
    (b : GVec) : Option GVec := do
  let f0 ← st.l[0]?
  let b1 := assembleVecForm f0 b
  let b2 ← (List.range st.l.length).foldlM (liftStep cont mpi st) b1
  let fL ← st.l[0]?
  pure (setBcVec cont mpi st.bcs fL b2)

/-- `fem::Assembler::assemble(PETScMatrix& A, PETScVector& b)`: the body
is exactly `assemble(A); assemble(b);` — assemble the matrix (an
exception propagates), then assemble the vector. -/
def assembleSystemTop (cont : Nat → Nat → Bool) (mpi : Nat) (st : AsmState)
    (A : GMat) (b : GVec) : Except String (List MEv × Option GVec) :=
  match assembleMatrixTop st.a A with
  | Except.error e => Except.error e
  | Except.ok tm => Except.ok (tm, assembleVectorTop cont mpi st b)

/-! ## Concrete fixtures used by witnesses and counterexamples -/

def contEq : Nat → Nat → Bool := fun x y => x == y

def bcW5 : BC := ⟨1, "topological", [(5, 4)], []⟩

def fW5 : Form := ⟨1, 1, []⟩

def fW2 : Form := ⟨0, 0, []⟩

def aW2 : List (List (Option Form)) := [[some fW2, none], [none, some fW2]]

def bcW6a : BC := ⟨1, "topological", [(3, 9)], [(4, 9)]⟩

def bcW6b : BC := ⟨1, "pointwise", [(5, 9)], []⟩

def bcW6c : BC := ⟨2, "topological", [(6, 9)], []⟩

/-- Whether row `i` of the form table can be traversed by the lifting
loop without an out-of-bounds or null access. -/
def rowOk (a : List (List (Option Form))) (i : Nat) : Bool :=
  ((a[i]?).map (fun row => row.all Option.isSome)).getD false

def fW3 : Form := ⟨0, 0, []⟩

def aW3 : List (List (Option Form)) := [[some fW3, some fW3], [some fW3, some fW3]]

def lW3 : List Form := [fW3]

def contEq7 : Nat → Nat → Bool := fun x y => x == y

def cellW7 : Cell := ⟨[0, 2], [0, 2], fun i j => (i : Int) + 2 * (j : Int) + 1,
  fun _ => 0⟩

def fW7 : Form := ⟨1, 1, [cellW7]⟩

def bcsW7 : List BC := [⟨1, "topological", [(2, 3)], []⟩]

def cellW1 : Cell := ⟨[3], [7], fun _ _ => 5, fun _ => 0⟩

def fW1 : Form := ⟨0, 1, [cellW1]⟩

def bcsW1 : List BC := [⟨1, "topological", [(7, 2)], []⟩]

/-! ## Basic lemmas about boundary maps -/

theorem bmFind_bmInsert (m : BMap) (p : Nat × Int) (d : Nat) :
    bmFind (bmInsert m p) d = if p.1 = d then some p.2 else bmFind m d := by
  induction m with
  | nil => rfl
  | cons q rest ih =>
    have hcons : ∀ (x : Nat × Int) (l : BMap),
        bmFind (x :: l) d = if x.1 = d then some x.2 else bmFind l d :=
      fun _ _ => rfl
    simp only [bmInsert]
    split_ifs <;> simp_all [hcons]

theorem isSome_bmFind_bmInsertAll (ps : List (Nat × Int)) (m : BMap) (d : Nat) :
    (bmFind (bmInsertAll m ps) d).isSome
      = ((bmFind m d).isSome || ps.any (fun p => p.1 == d)) := by
  induction ps generalizing m with
  | nil => simp [bmInsertAll]
  | cons p rest ih =>
    show (bmFind (bmInsertAll (bmInsert m p) rest) d).isSome = _
    rw [ih (bmInsert m p)]
    rw [bmFind_bmInsert]
    by_cases hd : p.1 = d
    · simp [hd]
    · have hb : (p.1 == d) = false := by simp [hd]
      simp [hd, hb]

theorem isSome_bmFind_bmInsertAll_mono (ps : List (Nat × Int)) (m : BMap) (d : Nat)
    (h : (bmFind m d).isSome = true) :
    (bmFind (bmInsertAll m ps) d).isSome = true := by
  simp [isSome_bmFind_bmInsertAll, h]

theorem isSome_bmFind_bmInsertAll_mem (ps : List (Nat × Int)) (m : BMap)
    (p : Nat × Int) (hp : p ∈ ps) :
    (bmFind (bmInsertAll m ps) p.1).isSome = true := by
  rw [isSome_bmFind_bmInsertAll]
  have : ps.any (fun q => q.1 == p.1) = true := by
    rw [List.any_eq_true]; exact ⟨p, hp, by simp⟩
  simp [this]

/-! ## Basic lemmas about scatter sums -/

theorem scatterSum_congr (ds : List Nat) (f g : Nat → Int) (d : Nat)
    (h : ∀ k, k < ds.length → ds.getD k 0 = d → f k = g k) :
    scatterSum ds f d = scatterSum ds g d := by
  induction ds generalizing f g with
  | nil => rfl
  | cons x rest ih =>
    simp only [scatterSum]
    congr 1
    · by_cases hx : x = d
      · rw [if_pos hx, if_pos hx, h 0 (by simp) (by simpa using hx)]
      · rw [if_neg hx, if_neg hx]
    · exact ih _ _ (fun k hk hget =>
        h (k + 1) (by simpa using Nat.succ_lt_succ hk) (by simpa using hget))

theorem scatterSum_mul (ds : List Nat) (f : Nat → Int) (v : Int) (d : Nat) :
    scatterSum ds (fun k => f k * v) d = scatterSum ds f d * v := by
  induction ds generalizing f with
  | nil => simp [scatterSum]
  | cons x rest ih =>
    simp only [scatterSum]
    rw [ih (fun k => f (k + 1))]
    by_cases hx : x = d <;> simp [hx, add_mul]

theorem scatterSum_neg (ds : List Nat) (f : Nat → Int) (d : Nat) :
    scatterSum ds (fun k => -(f k)) d = -scatterSum ds f d := by
  induction ds generalizing f with
  | nil => simp [scatterSum]
  | cons x rest ih =>
    simp only [scatterSum]
    rw [ih (fun k => f (k + 1))]
    by_cases hx : x = d
    · simp [hx]
      ring
    · simp [hx]

theorem scatterSum_zero_of_not_mem (ds : List Nat) (f : Nat → Int) (d : Nat)
    (h : ∀ x ∈ ds, x ≠ d) : scatterSum ds f d = 0 := by
  induction ds generalizing f with
  | nil => rfl
  | cons x rest ih =>
    simp only [scatterSum]
    rw [if_neg (h x (by simp)), ih _ (fun y hy => h y (by simp [hy]))]
    simp

/-! ## Claim theorems: matrix-side easy cases -/

/-- C4: calling `assemble(PETScMatrix& A)` on an already-initialised
(non-empty) matrix fails with the `"Not implemented"` error before any
matrix entry is mutated (the embedding returns the error and no matrix
state). -/
theorem assemble_matrix_initialized_error (a : List (List (Option Form)))
    (A : GMat) (h : A.isEmpty = false) :
    assembleMatrixTop a A = Except.error "Not implemented" := by
  simp [assembleMatrixTop, h]

theorem assemble_matrix_initialized_error_witness :
    assembleMatrixTop [[none]] ⟨false, fun _ _ => 0⟩ = Except.error "Not implemented" :=
  assemble_matrix_initialized_error [[none]] ⟨false, fun _ _ => 0⟩ rfl

/-- C5: in single-form matrix assembly, after the cell loop and the
global finalize, if the axis-0 and axis-1 spaces are identical then
every boundary-constrained dof's row is zero off-diagonal with a `1.0`
diagonal; if the two spaces differ, no diagonal entry is written — the
result is exactly the cell-loop output. -/
theorem assemble_form_diag_policy (cont : Nat → Nat → Bool) (mpi : Nat)
    (bcs : List BC) (f : Form) (A : GMat) :
    (f.space0 = f.space1 →
      ∀ d, (bmFind (resolveBCs cont f.space0 mpi bcs).1 d).isSome = true →
        ∀ c, (assembleFormMat cont mpi bcs f A).entries d c
          = if c = d then 1 else 0)
    ∧ (f.space0 ≠ f.space1 →
        (assembleFormMat cont mpi bcs f A).entries
          = f.cells.foldl
              (processCellMat (resolveBCs cont f.space0 mpi bcs).1
                (resolveBCs cont f.space1 mpi bcs).1)
              (if A.isEmpty then (fun _ _ => 0) else A.entries)) := by
  constructor
  · intro hsp d hd c
    simp [assembleFormMat, if_pos hsp, zeroDiagRows, hd]
  · intro hsp
    simp [assembleFormMat, hsp]

theorem assemble_form_diag_policy_witness :
    (assembleFormMat contEq 1 [bcW5] fW5 ⟨true, fun _ _ => 0⟩).entries 5 5
        = (if 5 = 5 then 1 else 0)
    ∧ (assembleFormMat contEq 1 [bcW5] fW5 ⟨true, fun _ _ => 0⟩).entries 5 7
        = (if 7 = 5 then 1 else 0) :=
  ⟨(assemble_form_diag_policy contEq 1 [bcW5] fW5 ⟨true, fun _ _ => 0⟩).1 rfl
      5 (by decide) 5,
   (assemble_form_diag_policy contEq 1 [bcW5] fW5 ⟨true, fun _ _ => 0⟩).1 rfl
      5 (by decide) 7⟩

/-- C8: in the per-cell boundary elimination, every local row whose
axis-0 global index is constrained and every local column whose axis-1
global index is constrained ends up zero, the two zeroing passes
commute, and the scatter-add of the cell uses the doubly-zeroed local
matrix (both passes complete before it). -/
theorem elimination_rows_cols_commute (bv0 bv1 : BMap) (d0 d1 : List Nat)
    (t : Nat → Nat → Int) (A : Nat → Nat → Int) (c : Cell) :
    zeroCols bv1 d1 (zeroRows bv0 d0 t) = zeroRows bv0 d0 (zeroCols bv1 d1 t)
    ∧ (∀ i j, zeroCols bv1 d1 (zeroRows bv0 d0 t) i j
        = if ((bmFind bv0 (d0.getD i 0)).isSome
              || (bmFind bv1 (d1.getD j 0)).isSome)
          then 0 else t i j)
    ∧ processCellMat bv0 bv1 A c
        = addLocalMat A c.dofs0 c.dofs1
            (zeroCols bv1 c.dofs1 (zeroRows bv0 c.dofs0 c.tensor)) := by
  refine ⟨?_, ?_, rfl⟩
  · funext i j
    simp only [zeroRows, zeroCols]
    split_ifs <;> rfl
  · intro i j
    simp only [zeroRows, zeroCols]
    split_ifs <;> simp_all

/-- C10: the combined `assemble(A, b)` is exactly the sequential
composition of `assemble(A)` and `assemble(b)` on the same assembler
state: the matrix part runs first (errors propagate), the vector part is
computed independently of the matrix result, and no shared
boundary-condition precomputation exists. -/
theorem assemble_system_is_composition (cont : Nat → Nat → Bool) (mpi : Nat)
    (st : AsmState) (A : GMat) (b : GVec) :
    assembleSystemTop cont mpi st A b
      = (assembleMatrixTop st.a A).map
          (fun tm => (tm, assembleVectorTop cont mpi st b)) := by
  cases h : assembleMatrixTop st.a A <;> simp [assembleSystemTop, h, Except.map]

/-! ## Block matrix assembly: finalize discipline (C2) -/

theorem apply_full_not_mem_formTrace_sub (i j : Nat) (f : Form) :
    MEv.apply MId.full ∉ formTrace (MId.sub i j) f := by
  simp only [formTrace]
  split_ifs <;> simp

theorem apply_full_not_mem_blockTrace (a : List (List (Option Form))) :
    MEv.apply MId.full ∉ blockTrace a := by
  intro h
  simp only [blockTrace, List.mem_flatMap, List.mem_range] at h
  obtain ⟨i, _, j, _, hmem⟩ := h
  cases hof : (a.getD i []).getD j none with
  | some f =>
    rw [hof] at hmem
    exact apply_full_not_mem_formTrace_sub i j f hmem
  | none =>
    rw [hof] at hmem
    exact List.not_mem_nil _ hmem

/-- C2: for `assemble(PETScMatrix&)` with a block (nested) form table,
the finalize of the full matrix occurs exactly once in the event trace,
as its very last event — after every sub-block fill — and never inside
the per-sub-block assembly (whose own `apply` targets the sub-matrix
view, not the full matrix). -/
theorem assemble_matrix_block_finalize_once (a : List (List (Option Form)))
    (A : GMat) (tr : List MEv)
    (hblock : 1 < a.length ∨ 1 < (a.getD 0 []).length)
    (hok : assembleMatrixTop a A = Except.ok tr) :
    tr.count (MEv.apply MId.full) = 1
    ∧ ∃ pre, tr = pre ++ [MEv.apply MId.full] ∧ MEv.apply MId.full ∉ pre := by
  have htr : tr = blockTrace a ++ [MEv.apply MId.full] := by
    by_cases hA : A.isEmpty
    · simp only [assembleMatrixTop, if_pos hA] at hok
      have h2 := Except.ok.inj hok
      rw [← h2, matAssembleTrace, if_pos hblock]
    · simp only [assembleMatrixTop, if_neg hA] at hok
      cases hok
  constructor
  · rw [htr, List.count_append,
      List.count_eq_zero.mpr (apply_full_not_mem_blockTrace a)]
    simp
  · exact ⟨blockTrace a, htr, apply_full_not_mem_blockTrace a⟩

theorem assemble_matrix_block_finalize_once_witness :
    (matAssembleTrace aW2).count (MEv.apply MId.full) = 1
    ∧ ∃ pre, matAssembleTrace aW2 = pre ++ [MEv.apply MId.full]
        ∧ MEv.apply MId.full ∉ pre :=
  assemble_matrix_block_finalize_once aW2 ⟨true, fun _ _ => 0⟩
    (matAssembleTrace aW2) (Or.inl (by decide)) rfl

/-! ## Boundary-map resolution: gather discipline (C6) -/

theorem resolveAux_gather_mem (cont : Nat → Nat → Bool) (sp mpi : Nat)
    (bcs : List BC) :
    ∀ (k0 : Nat) (m : BMap) (k : Nat),
      k ∈ (resolveAux cont sp mpi bcs k0 m).2
        ↔ ∃ j bc, bcs.get? j = some bc ∧ k = k0 + j ∧ cont sp bc.space = true
            ∧ 1 < mpi ∧ bc.method ≠ "pointwise" := by
  induction bcs with
  | nil =>
    intro k0 m k
    simp [resolveAux]
  | cons bc rest ih =>
    intro k0 m k
    constructor
    · intro hk
      simp only [resolveAux] at hk
      by_cases hc : cont sp bc.space = true
      · rw [if_pos hc] at hk
        by_cases hg : 1 < mpi ∧ bc.method ≠ "pointwise"
        · rw [if_pos hg] at hk
          rcases List.mem_cons.mp hk with hk0 | hk'
          · exact ⟨0, bc, rfl, by omega, hc, hg.1, hg.2⟩
          · obtain ⟨j, bc', hj, hkj, h1, h2, h3⟩ := (ih (k0 + 1) _ k).mp hk'
            exact ⟨j + 1, bc', by simpa using hj, by omega, h1, h2, h3⟩
        · rw [if_neg hg] at hk
          obtain ⟨j, bc', hj, hkj, h1, h2, h3⟩ := (ih (k0 + 1) _ k).mp hk
          exact ⟨j + 1, bc', by simpa using hj, by omega, h1, h2, h3⟩
      · rw [if_neg hc] at hk
        obtain ⟨j, bc', hj, hkj, h1, h2, h3⟩ := (ih (k0 + 1) _ k).mp hk
        exact ⟨j + 1, bc', by simpa using hj, by omega, h1, h2, h3⟩
    · rintro ⟨j, bc', hj, hkj, h1, h2, h3⟩
      simp only [resolveAux]
      cases j with
      | zero =>
        rw [List.get?_cons_zero] at hj
        cases hj
        rw [if_pos h1, if_pos ⟨h2, h3⟩]
        have hk0 : k = k0 := by omega
        subst hk0
        exact List.mem_cons_self _ _
      | succ j' =>
        rw [List.get?_cons_succ] at hj
        by_cases hc : cont sp bc.space = true
        · rw [if_pos hc]
          by_cases hg : 1 < mpi ∧ bc.method ≠ "pointwise"
          · rw [if_pos hg]
            exact List.mem_cons_of_mem _
              ((ih (k0 + 1) _ k).mpr ⟨j', bc', hj, by omega, h1, h2, h3⟩)
          · rw [if_neg hg]
            exact (ih (k0 + 1) _ k).mpr ⟨j', bc', hj, by omega, h1, h2, h3⟩
        · rw [if_neg hc]
          exact (ih (k0 + 1) _ k).mpr ⟨j', bc', hj, by omega, h1, h2, h3⟩

theorem resolveAux_keys_mono (cont : Nat → Nat → Bool) (sp mpi : Nat)
    (bcs : List BC) :
    ∀ (k0 : Nat) (m : BMap) (d : Nat),
      (bmFind m d).isSome = true →
      (bmFind (resolveAux cont sp mpi bcs k0 m).1 d).isSome = true := by
  induction bcs with
  | nil =>
    intro k0 m d h
    simpa [resolveAux] using h
  | cons bc rest ih =>
    intro k0 m d h
    simp only [resolveAux]
    by_cases hc : cont sp bc.space = true
    · rw [if_pos hc]
      by_cases hg : 1 < mpi ∧ bc.method ≠ "pointwise"
      · rw [if_pos hg]
        exact ih (k0 + 1) _ d
          (isSome_bmFind_bmInsertAll_mono _ _ d
            (isSome_bmFind_bmInsertAll_mono _ _ d h))
      · rw [if_neg hg]
        exact ih (k0 + 1) _ d (isSome_bmFind_bmInsertAll_mono _ _ d h)
    · rw [if_neg hc]
      exact ih (k0 + 1) _ d h

theorem resolveAux_local_keys (cont : Nat → Nat → Bool) (sp mpi : Nat)
    (bcs : List BC) :
    ∀ (k : Nat) (bc : BC), bcs.get? k = some bc →
      cont sp bc.space = true →
      ∀ (k0 : Nat) (m : BMap), ∀ p ∈ bc.localPairs,
        (bmFind (resolveAux cont sp mpi bcs k0 m).1 p.1).isSome = true := by
  induction bcs with
  | nil =>
    intro k bc hj
    cases hj
  | cons bc0 rest ih =>
    intro k bc hj hc k0 m p hp
    cases k with
    | zero =>
      rw [List.get?_cons_zero] at hj
      cases hj
      simp only [resolveAux]
      rw [if_pos hc]
      by_cases hg : 1 < mpi ∧ bc0.method ≠ "pointwise"
      · rw [if_pos hg]
        exact resolveAux_keys_mono cont sp mpi rest (k0 + 1) _ p.1
          (isSome_bmFind_bmInsertAll_mono _ _ p.1
            (isSome_bmFind_bmInsertAll_mem _ _ p hp))
      · rw [if_neg hg]
        exact resolveAux_keys_mono cont sp mpi rest (k0 + 1) _ p.1
          (isSome_bmFind_bmInsertAll_mem _ _ p hp)
    | succ k' =>
      rw [List.get?_cons_succ] at hj
      simp only [resolveAux]
      by_cases hc0 : cont sp bc0.space = true
      · rw [if_pos hc0]
        by_cases hg : 1 < mpi ∧ bc0.method ≠ "pointwise"
        · rw [if_pos hg]
          exact ih k' bc hj hc (k0 + 1) _ p hp
        · rw [if_neg hg]
          exact ih k' bc hj hc (k0 + 1) _ p hp
      · rw [if_neg hc0]
        exact ih k' bc hj hc (k0 + 1) _ p hp

/-- C6: in the shared boundary-map resolution (used by matrix assembly
on both axes, by the lifting correction on axis 1, and by `set_bc` on
axis 0), the collective gather is performed for condition `k` if and
only if the condition's space is contained in the axis space, execution
is distributed (`MPI::size > 1`) and the method is not `"pointwise"`;
and every contained condition's locally resolved pairs are merged into
the map. -/
theorem resolve_bcs_gather_iff (cont : Nat → Nat → Bool) (sp mpi : Nat)
    (bcs : List BC) (k : Nat) :
    (k ∈ (resolveBCs cont sp mpi bcs).2
      ↔ ∃ bc, bcs.get? k = some bc ∧ cont sp bc.space = true
          ∧ 1 < mpi ∧ bc.method ≠ "pointwise")
    ∧ (∀ bc, bcs.get? k = some bc → cont sp bc.space = true →
        ∀ p ∈ bc.localPairs,
          (bmFind (resolveBCs cont sp mpi bcs).1 p.1).isSome = true) := by
  constructor
  · rw [resolveBCs, resolveAux_gather_mem cont sp mpi bcs 0 [] k]
    constructor
    · rintro ⟨j, bc, hj, hkj, h1, h2, h3⟩
      have : j = k := by omega
      subst this
      exact ⟨bc, hj, h1, h2, h3⟩
    · rintro ⟨bc, hj, h1, h2, h3⟩
      exact ⟨k, bc, hj, by omega, h1, h2, h3⟩
  · intro bc hj hc p hp
    exact resolveAux_local_keys cont sp mpi bcs k bc hj hc 0 [] p hp

theorem resolve_bcs_gather_iff_witness :
    (0 ∈ (resolveBCs contEq 1 4 [bcW6a, bcW6b, bcW6c]).2
      ↔ ∃ bc, [bcW6a, bcW6b, bcW6c].get? 0 = some bc
          ∧ contEq 1 bc.space = true ∧ 1 < 4 ∧ bc.method ≠ "pointwise")
    ∧ (∀ bc, [bcW6a, bcW6b, bcW6c].get? 0 = some bc →
        contEq 1 bc.space = true →
        ∀ p ∈ bc.localPairs,
          (bmFind (resolveBCs contEq 1 4 [bcW6a, bcW6b, bcW6c]).1 p.1).isSome
            = true) :=
  resolve_bcs_gather_iff contEq 1 4 [bcW6a, bcW6b, bcW6c] 0

/-! ## Access safety of vector assembly (C9) -/

theorem getElem?_eq_some_getD {α : Type} (l : List α) (i : Nat) (d : α)
    (h : i < l.length) : l[i]? = some (l.getD i d) := by
  rw [List.getD_eq_getElem?_getD, List.getElem?_eq_getElem h]
  rfl

theorem foldlM_option_isSome {α β : Type} (p : α → Bool)
    (step : β → α → Option β) (hstep : ∀ w x, (step w x).isSome = p x) :
    ∀ (xs : List α) (b : β), (xs.foldlM step b).isSome = xs.all p := by
  intro xs
  induction xs with
  | nil => intro b; simp
  | cons x rest ih =>
    intro b
    rw [List.foldlM_cons, List.all_cons]
    cases hx : step b x with
    | none =>
      have hp := hstep b x
      rw [hx] at hp
      simp [← hp]
    | some b' =>
      have hp := hstep b x
      rw [hx] at hp
      simp only [Option.isSome_some] at hp
      simp [← hp, ih b']

theorem liftStep_isSome (cont : Nat → Nat → Bool) (mpi : Nat)
    (st : AsmState) (w : GVec) (i : Nat) :
    (liftStep cont mpi st w i).isSome = rowOk st.a i := by
  cases hr : st.a[i]? with
  | none => simp [liftStep, rowOk, hr]
  | some row =>
    simp only [liftStep, rowOk, hr, Option.some_bind, Option.map_some',
      Option.getD_some]
    exact foldlM_option_isSome Option.isSome _ (fun w' of => by cases of <;> rfl)
      row w

theorem range_all_rowOk_iff (a : List (List (Option Form))) (n : Nat) :
    (List.range n).all (rowOk a) = true
      ↔ (n ≤ a.length ∧ ∀ i, i < n → ∀ of ∈ a.getD i [], of.isSome = true) := by
  rw [List.all_eq_true]
  constructor
  · intro h
    have hlt : ∀ i, i < n → i < a.length := by
      intro i hi
      have hi2 := h i (List.mem_range.mpr hi)
      by_contra hF
      have hnone : a[i]? = none := List.getElem?_eq_none (by omega)
      simp [rowOk, hnone] at hi2
    constructor
    · by_contra hF
      push_neg at hF
      exact absurd (hlt a.length hF) (by omega)
    · intro i hi of hof
      have hi2 := h i (List.mem_range.mpr hi)
      rw [rowOk, getElem?_eq_some_getD a i [] (hlt i hi)] at hi2
      simp only [Option.map_some', Option.getD_some, List.all_eq_true] at hi2
      exact hi2 of hof
  · rintro ⟨hle, hall⟩ i hi
    rw [List.mem_range] at hi
    rw [rowOk, getElem?_eq_some_getD a i [] (by omega)]
    simp only [Option.map_some', Option.getD_some, List.all_eq_true]
    exact hall i hi

/-- C9: `assemble(PETScVector&)` performs every container access in
bounds and every form dereference non-null exactly when the implicit
precondition holds: the linear-form list is non-empty, its length does
not exceed the number of rows of the bilinear-form table, and every
table entry in the first `_l.size()` rows is non-absent. -/
theorem assemble_vector_access_safety (cont : Nat → Nat → Bool) (mpi : Nat)
    (st : AsmState) (b : GVec) :
    (assembleVectorTop cont mpi st b).isSome = true
      ↔ (0 < st.l.length ∧ st.l.length ≤ st.a.length
          ∧ ∀ i, i < st.l.length → ∀ of ∈ st.a.getD i [], of.isSome = true) := by
  cases h0 : st.l[0]? with
  | none =>
    have hlen : st.l.length = 0 := by
      have := List.getElem?_eq_none_iff.mp h0
      omega
    simp [assembleVectorTop, h0, hlen]
  | some f0 =>
    have hlen0 : 0 < st.l.length := by
      by_contra hF
      rw [List.getElem?_eq_none (by omega)] at h0
      cases h0
    have hfold := foldlM_option_isSome (rowOk st.a) (liftStep cont mpi st)
      (liftStep_isSome cont mpi st) (List.range st.l.length)
      (assembleVecForm f0 b)
    have hmain : (assembleVectorTop cont mpi st b).isSome
        = ((List.range st.l.length).foldlM (liftStep cont mpi st)
            (assembleVecForm f0 b)).isSome := by
      simp only [assembleVectorTop, h0, Option.some_bind]
      cases hF : (List.range st.l.length).foldlM (liftStep cont mpi st)
          (assembleVecForm f0 b) <;> simp [hF, h0]
    rw [hmain, hfold, range_all_rowOk_iff]
    constructor
    · rintro ⟨h1, h2⟩
      exact ⟨hlen0, h1, h2⟩
    · rintro ⟨_, h1, h2⟩
      exact ⟨h1, h2⟩

/-! ## Vector-assembly event ordering (C3) -/

theorem mem_liftEvents_iff (a : List (List (Option Form))) (l : List Form)
    (i j : Nat) :
    VEv.lift i j ∈ liftEvents a l
      ↔ (i < l.length ∧ j < (a.getD i []).length) := by
  simp only [liftEvents, List.mem_flatMap, List.mem_range, List.mem_map]
  constructor
  · rintro ⟨i', hi', j', hj', heq⟩
    cases heq
    exact ⟨hi', hj'⟩
  · rintro ⟨hi, hj⟩
    exact ⟨i, hi, j, hj, rfl⟩

/-- C3 counterexample: with a 2×2 bilinear-form table but a single
linear form, the lifting loop covers only row 0 — the event `lift 1 0`
never occurs although row 1 of the table exists and has two columns,
refuting the claim's quantification over every row of the table (the
loop bound is `_l.size()`, not `_a.size()`). -/
theorem assemble_vector_lifting_rows_counterexample :
    1 < aW3.length ∧ 0 < (aW3.getD 1 []).length
    ∧ VEv.lift 1 0 ∉ assembleVecTrace aW3 lW3 := by
  refine ⟨by decide, by decide, ?_⟩
  intro h
  rw [assembleVecTrace] at h
  rcases List.mem_cons.mp h with h | h
  · cases h
  rcases List.mem_append.mp h with h | h
  · rw [mem_liftEvents_iff] at h
    have h1 : (1 : Nat) < lW3.length := h.1
    simp [lW3] at h1
  · rcases List.mem_singleton.mp h with h
    cases h

/-- C3 (amended): `assemble(PETScVector&)` performs, in order, the
cell-loop assembly of the first linear form, then the lifting correction
`apply_bc(b, _a[i][j], _bcs)` for every row index `i` below the number
of linear forms (not every row of the table) and every column `j` of row
`i`, and finally `set_bc` for the first linear form — after all lifting
corrections. -/
theorem assemble_vector_order_amended (a : List (List (Option Form)))
    (l : List Form) :
    assembleVecTrace a l = VEv.asmVec :: (liftEvents a l ++ [VEv.setBc])
    ∧ (∀ i j, VEv.lift i j ∈ liftEvents a l
        ↔ (i < l.length ∧ j < (a.getD i []).length))
    ∧ VEv.asmVec ∉ liftEvents a l ∧ VEv.setBc ∉ liftEvents a l := by
  refine ⟨rfl, mem_liftEvents_iff a l, ?_, ?_⟩
  · intro h
    simp only [liftEvents, List.mem_flatMap, List.mem_range, List.mem_map] at h
    obtain ⟨i, _, j, _, heq⟩ := h
    cases heq
  · intro h
    simp only [liftEvents, List.mem_flatMap, List.mem_range, List.mem_map] at h
    obtain ⟨i, _, j, _, heq⟩ := h
    cases heq

theorem assemble_vector_order_amended_witness :
    assembleVecTrace aW3 lW3 = VEv.asmVec :: (liftEvents aW3 lW3 ++ [VEv.setBc])
    ∧ (∀ i j, VEv.lift i j ∈ liftEvents aW3 lW3
        ↔ (i < lW3.length ∧ j < (aW3.getD i []).length))
    ∧ VEv.asmVec ∉ liftEvents aW3 lW3 ∧ VEv.setBc ∉ liftEvents aW3 lW3 :=
  assemble_vector_order_amended aW3 lW3

/-! ## Lifting correction: value lemmas (C7, C1) -/

theorem scatterSum_const_zero (ds : List Nat) (d : Nat) :
    scatterSum ds (fun _ => 0) d = 0 := by
  induction ds with
  | nil => rfl
  | cons x rest ih =>
    simp only [scatterSum]
    rw [ih]
    by_cases hx : x = d <;> simp [hx]

theorem liftSum_singleton (cd : Nat) (v : Int) (ds : List Nat)
    (row : Nat → Int) :
    liftSum [(cd, v)] ds row = scatterSum ds row cd * v := by
  induction ds generalizing row with
  | nil => simp [liftSum, scatterSum]
  | cons g rest ih =>
    simp only [liftSum, scatterSum]
    rw [ih]
    by_cases hg : cd = g
    · have hf : bmFind [(cd, v)] g = some v := by simp [bmFind, hg]
      rw [hf, if_pos hg.symm]
      simp only [Option.map_some', Option.getD_some]
      ring
    · have hf : bmFind [(cd, v)] g = none := by simp [bmFind, hg]
      rw [hf, if_neg (fun h => hg h.symm)]
      simp only [Option.map_none', Option.getD_none]
      ring

theorem applyBcAe_eq (cd : Nat) (v : Int) (spEq : Bool) (cl : Cell)
    (k j : Nat) (hk : k < cl.dofs1.length) (hki : cl.dofs1.getD k 0 ≠ cd)
    (hj : j < cl.dofs1.length) (hdd : cl.dofs0 = cl.dofs1) :
    (if spEq then zeroRows [(cd, v)] cl.dofs1 (tensorBuf cl)
     else tensorBuf cl) k j
      = cl.tensor k j := by
  have hsing : ∀ x : Nat, bmFind [(cd, v)] x = if cd = x then some v else none :=
    fun _ => rfl
  have hrow : (bmFind [(cd, v)] (cl.dofs1.getD k 0)).isSome = false := by
    rw [hsing, if_neg (fun h => hki h.symm)]
    rfl
  have hk0 : k < cl.dofs0.length := by rw [hdd]; exact hk
  have hbuf : tensorBuf cl k j = cl.tensor k j := by
    simp [tensorBuf, hk0, hj]
  cases spEq
  · simpa using hbuf
  · show zeroRows [(cd, v)] cl.dofs1 (tensorBuf cl) k j = cl.tensor k j
    unfold zeroRows
    rw [if_neg (by rw [hrow]; simp)]
    exact hbuf

theorem applyBcCell_entry (cd : Nat) (v : Int) (spEq : Bool) (b : GVec)
    (cl : Cell) (i : Nat) (hdd : cl.dofs0 = cl.dofs1) (hi : i ≠ cd) :
    (applyBcCell [(cd, v)] spEq b cl).entries i
      = b.entries i
        - scatterSum cl.dofs0
            (fun k => scatterSum cl.dofs1 (fun j => cl.tensor k j) cd) i
          * v := by
  by_cases hbc : cl.dofs1.any (fun d => (bmFind [(cd, v)] d).isSome) = true
  · have hpos : applyBcCell [(cd, v)] spEq b cl
        = GVec.addLocal b
            (fun k => -(liftSum [(cd, v)] cl.dofs1
              (fun j => (if spEq then zeroRows [(cd, v)] cl.dofs1 (tensorBuf cl)
                         else tensorBuf cl) k j)))
            cl.dofs1 := by
      unfold applyBcCell
      rw [if_pos hbc]
    rw [hpos]
    show b.entries i + scatterSum cl.dofs1 _ i = _
    have hstep : scatterSum cl.dofs1
        (fun k => -(liftSum [(cd, v)] cl.dofs1
          (fun j => (if spEq then zeroRows [(cd, v)] cl.dofs1 (tensorBuf cl)
                     else tensorBuf cl) k j))) i
        = scatterSum cl.dofs1
            (fun k => -(scatterSum cl.dofs1 (fun j => cl.tensor k j) cd * v))
            i := by
      apply scatterSum_congr
      intro k hk hki
      rw [liftSum_singleton]
      congr 1
      congr 1
      apply scatterSum_congr
      intro j hj _
      exact applyBcAe_eq cd v spEq cl k j hk (by rw [hki]; exact hi) hj hdd
    rw [hstep, scatterSum_neg, scatterSum_mul, hdd]
    ring
  · have hskip : applyBcCell [(cd, v)] spEq b cl = b := by
      unfold applyBcCell
      rw [if_neg hbc]
    rw [hskip]
    have hno : ∀ d ∈ cl.dofs1, d ≠ cd := by
      intro d hd hEq
      apply hbc
      rw [List.any_eq_true]
      refine ⟨d, hd, ?_⟩
      have : bmFind [(cd, v)] d = some v := by simp [bmFind, hEq.symm]
      rw [this]
      rfl
    have hzero : scatterSum cl.dofs0
        (fun k => scatterSum cl.dofs1 (fun j => cl.tensor k j) cd) i = 0 := by
      rw [hdd]
      rw [scatterSum_congr cl.dofs1 _ (fun _ => 0) i
        (fun k _ _ => scatterSum_zero_of_not_mem _ _ _ hno)]
      exact scatterSum_const_zero _ _
    rw [hzero]
    ring

theorem applyBcCells_fold (cd : Nat) (v : Int) (sp : Bool) (i : Nat)
    (hi : i ≠ cd) :
    ∀ (cs : List Cell), (∀ cl ∈ cs, cl.dofs0 = cl.dofs1) → ∀ (b : GVec),
      (cs.foldl (applyBcCell [(cd, v)] sp) b).entries i
        = b.entries i
          - (cs.map (fun cl => scatterSum cl.dofs0
              (fun k => scatterSum cl.dofs1 (fun j => cl.tensor k j) cd) i)).sum
            * v := by
  intro cs
  induction cs with
  | nil =>
    intro _ b
    simp
  | cons c rest ih =>
    intro hdd b
    rw [List.foldl_cons, List.map_cons, List.sum_cons]
    rw [ih (fun cl hcl => hdd cl (List.mem_cons_of_mem _ hcl))
      (applyBcCell [(cd, v)] sp b c)]
    rw [applyBcCell_entry cd v sp b c i (hdd c (List.mem_cons_self _ _)) hi]
    ring

/-- C7: in the lifting correction, a cell with no boundary-constrained
axis-1 local dof is skipped and contributes nothing; and for a
one-constrained-dof square system (equal per-cell dof maps, a boundary
map containing the single pair `(cd, v)`), the corrected right-hand side
at any unconstrained row `i` equals
`original_b[i] - A[i, cd] * v`, where `A` is the bilinear form assembled
with no boundary handling at all. -/
theorem apply_bc_lifting_correction (cont : Nat → Nat → Bool) (mpi : Nat)
    (bcs : List BC) (f : Form) (cd : Nat) (v : Int) (i : Nat) (b : GVec)
    (hbv : (resolveBCs cont f.space1 mpi bcs).1 = [(cd, v)])
    (hi : i ≠ cd) (hdd : ∀ cl ∈ f.cells, cl.dofs0 = cl.dofs1) :
    (∀ (bset : BMap) (sp : Bool) (w : GVec) (cl : Cell),
        (∀ d ∈ cl.dofs1, bmFind bset d = none) →
        applyBcCell bset sp w cl = w)
    ∧ (applyBcValues cont mpi bcs f b).entries i
        = b.entries i - pureMatrixEntry f i cd * v := by
  constructor
  · intro bset sp w cl hnone
    have hfalse : cl.dofs1.any (fun d => (bmFind bset d).isSome) = false := by
      rw [List.any_eq_false]
      intro d hd
      rw [hnone d hd]
      simp
    unfold applyBcCell
    rw [if_neg (by rw [hfalse]; simp)]
  · have hval : applyBcValues cont mpi bcs f b
        = f.cells.foldl (applyBcCell (resolveBCs cont f.space1 mpi bcs).1
            (f.space0 == f.space1)) b := rfl
    rw [hval, hbv,
      applyBcCells_fold cd v (f.space0 == f.space1) i hi f.cells hdd b]
    rfl

theorem apply_bc_lifting_correction_witness :
    (∀ (bset : BMap) (sp : Bool) (w : GVec) (cl : Cell),
        (∀ d ∈ cl.dofs1, bmFind bset d = none) →
        applyBcCell bset sp w cl = w)
    ∧ (applyBcValues contEq7 1 bcsW7 fW7 vecInit).entries 0
        = vecInit.entries 0 - pureMatrixEntry fW7 0 2 * 3 :=
  apply_bc_lifting_correction contEq7 1 bcsW7 fW7 2 3 0 vecInit (by decide)
    (by decide)
    (by
      intro cl hcl
      have hc : cl = cellW7 := by simpa [fW7] using hcl
      subst hc
      rfl)

/-! ## The lifting scatter map (C1) -/

/-- C1: evaluation of the lifting correction at a cell whose axis-0 and
axis-1 dof maps differ (test dofs `[3]`, trial dofs `[7]`, dof 7
constrained to value 2, constant local tensor 5): the correction `-10`
is scatter-added at global dof 7 — the axis-1 dof — while global dof 3,
the axis-0 target the claim and the spec prescribe, is untouched.  The
source (`Assembler.cpp:469`) takes `dmap0` from `dofmap1`; the
`dofmap0` variable fetched at line 406 is never used. -/
theorem applyBc_scatter_targets_axis1 :
    (applyBcValues contEq7 1 bcsW1 fW1 vecInit).entries 7 = -10
    ∧ (applyBcValues contEq7 1 bcsW1 fW1 vecInit).entries 3 = 0 := by
  constructor
  · decide
  · decide
